import Mathlib

/-!
Shallow embedding of `src/spin_lock.rs` (ultracpp/rust-spinlock).

The Rust code implements `SpinLock<T>`: an `AtomicBool` flag `lock_` plus an
`UnsafeCell<T>` payload `data`, with operations `new`, `lock`,
`lock_with_max_attempts`, `unlock`, `with_lock`, `with_lock_timeout`.

Modelling choices:
* Atomic memory orderings are carried as syntactic annotations (`MemOrder`) on
  the events an execution emits, exactly as written in the source.
* The acquire loops (`lock`, `lock_with_max_attempts`) poll a flag that other
  threads may change between our atomic accesses.  We model the environment as
  an oracle `sched : Nat → Bool` giving the flag value observed at the n-th
  atomic access of the call; a compare-exchange from `false` to `true` succeeds
  exactly when the observed value is `false`.  Executions are fuelled (one fuel
  per atomic access) and return the full event trace, so every memory effect of
  the call is visible in the result.
* For single-state facts (`new`, `unlock`) we use a plain record state.
* For mutual exclusion we use an interleaving semantics: each thread runs the
  loop `lock(); <critical section>; unlock()` compiled to a step function on
  the genuinely shared flag, and a scheduler (a list of thread indices) picks
  who performs the next atomic access.
-/

/-- `const USE_SLEEP_SPIN_LOCK: bool = true;` (spin_lock.rs line 21). -/
def USE_SLEEP_SPIN_LOCK : Bool := true

/-- `const SPIN_LOCK_SLEEP_ONE_FREQUENCY: usize = 50;` (spin_lock.rs line 22). -/
def SPIN_LOCK_SLEEP_ONE_FREQUENCY : Nat := 50

/-- `const SPIN_LOCK_MAX_ATTEMPTS: usize = 500;` (spin_lock.rs line 23). -/
def SPIN_LOCK_MAX_ATTEMPTS : Nat := 500

/-- Rust `std::sync::atomic::Ordering` values used by the source. -/
inductive MemOrder where
  | acquire
  | release
  | relaxed
deriving DecidableEq, Repr

/-- One observable action of an execution of the lock code.
`cas observed succ fail` is `lock_.compare_exchange(false, true, succ, fail)`
observing current value `observed` (success, writing `true`, iff
`observed = false`); `load v ord` is `lock_.load(ord)` returning `v`;
`store v ord` is `lock_.store(v, ord)`; `yieldNow` is `thread::yield_now()`;
`sleepMillis n` is `thread::sleep(Duration::from_millis(n))`; `invoke` is the
call `f(&mut *self.data.get())` of a scoped helper (the only payload access
anywhere in the source). -/
inductive Event where
  | cas (observed : Bool) (success : MemOrder) (failure : MemOrder)
  | load (value : Bool) (ord : MemOrder)
  | store (value : Bool) (ord : MemOrder)
  | yieldNow
  | sleepMillis (n : Nat)
  | invoke
deriving DecidableEq, Repr

/-- The lock state: `lock_: AtomicBool`, `data: UnsafeCell<T>`
(spin_lock.rs lines 25-28). -/
structure SpinLock (T : Type) where
  lock_ : Bool
  data : T
deriving DecidableEq, Repr

/-- `SpinLock::new` (spin_lock.rs lines 33-38): flag starts `false` (free),
payload starts at `data`. -/
def SpinLock.new {T : Type} (data : T) : SpinLock T :=
  { lock_ := false, data := data }

/-- `SpinLock::unlock` (spin_lock.rs lines 100-102):
`self.lock_.store(false, Ordering::Release)`.  Returns the new state and the
memory events performed. -/
def SpinLock.unlock {T : Type} (s : SpinLock T) : SpinLock T × List Event :=
  ({ s with lock_ := false }, [Event.store false MemOrder.release])

/-- The sleep backoff inside the wait loops (spin_lock.rs lines 55-62 and
88-95): under `USE_SLEEP_SPIN_LOCK`, `freq += 1`, and when `freq` hits
`SPIN_LOCK_SLEEP_ONE_FREQUENCY` the thread sleeps 1 ms and `freq` resets to 0.
Returns the events emitted and the new value of `freq`. -/
def sleepStep (freq : Nat) : List Event × Nat :=
  if USE_SLEEP_SPIN_LOCK then
    if freq + 1 = SPIN_LOCK_SLEEP_ONE_FREQUENCY then
      ([Event.sleepMillis 1], 0)
    else
      ([], freq + 1)
  else ([], freq)

/-- One full iteration of the inner wait loop when the flag is observed held
(spin_lock.rs lines 52-63): the relaxed load that saw `true`, then
`thread::yield_now()`, then the sleep backoff.  Returns the events and the new
`freq`.  This is the loop body shared by `lock` and (when the attempts budget
is not yet exhausted) `lock_with_max_attempts`. -/
def spinWaitIteration (freq : Nat) : List Event × Nat :=
  (Event.load true MemOrder.relaxed :: Event.yieldNow :: (sleepStep freq).1,
   (sleepStep freq).2)

/-- `SpinLock::lock` (spin_lock.rs lines 40-65) against oracle `sched`.
Arguments: fuel, index of the next atomic access, current `freq`, and the
program counter (`true` = about to run the outer `compare_exchange`, `false` =
about to run the inner `while` condition's relaxed load).  Returns `none` when
fuel runs out (the call is still spinning), otherwise the event trace and the
next access index. -/
def lockRun (sched : Nat → Bool) : Nat → Nat → Nat → Bool → Option (List Event × Nat)
  | 0, _, _, _ => none
  | fuel + 1, i, freq, true =>
    if sched i = false then
      some ([Event.cas false MemOrder.acquire MemOrder.relaxed], i + 1)
    else
      (lockRun sched fuel (i + 1) freq false).map
        (fun p => (Event.cas true MemOrder.acquire MemOrder.relaxed :: p.1, p.2))
  | fuel + 1, i, freq, false =>
    if sched i = true then
      (lockRun sched fuel (i + 1) (spinWaitIteration freq).2 false).map
        (fun p => ((spinWaitIteration freq).1 ++ p.1, p.2))
    else
      (lockRun sched fuel (i + 1) freq true).map
        (fun p => (Event.load false MemOrder.relaxed :: p.1, p.2))

/-- The error string of `lock_with_max_attempts` (spin_lock.rs line 85). -/
def maxAttemptsMsg : String := "Failed to acquire lock after maximum attempts"

/-- `SpinLock::lock_with_max_attempts` (spin_lock.rs lines 67-98) against
oracle `sched`.  Arguments as in `lockRun` plus the `attempts` counter, which
is incremented on every inner-poll iteration (after the yield) and is never
reset; when it reaches `SPIN_LOCK_MAX_ATTEMPTS` the call returns
`Err(maxAttemptsMsg)` before the sleep backoff of that iteration. -/
def lockMaxRun (sched : Nat → Bool) :
    Nat → Nat → Nat → Nat → Bool → Option (Except String Unit × List Event × Nat)
  | 0, _, _, _, _ => none
  | fuel + 1, i, freq, attempts, true =>
    if sched i = false then
      some (Except.ok (), [Event.cas false MemOrder.acquire MemOrder.relaxed], i + 1)
    else
      (lockMaxRun sched fuel (i + 1) freq attempts false).map
        (fun p => (p.1, Event.cas true MemOrder.acquire MemOrder.relaxed :: p.2.1, p.2.2))
  | fuel + 1, i, freq, attempts, false =>
    if sched i = true then
      if attempts + 1 ≥ SPIN_LOCK_MAX_ATTEMPTS then
        some (Except.error maxAttemptsMsg,
              [Event.load true MemOrder.relaxed, Event.yieldNow], i + 1)
      else
        (lockMaxRun sched fuel (i + 1) (spinWaitIteration freq).2 (attempts + 1) false).map
          (fun p => (p.1, (spinWaitIteration freq).1 ++ p.2.1, p.2.2))
    else
      (lockMaxRun sched fuel (i + 1) freq attempts true).map
        (fun p => (p.1, Event.load false MemOrder.relaxed :: p.2.1, p.2.2))

/-- `SpinLock::with_lock` (spin_lock.rs lines 105-110): `self.lock()`, then
`f` on the payload, then `self.unlock()`.  `f` maps the payload to the new
payload and the closure's result (modelling `FnOnce(&mut T) -> R`).  Returns
the final payload, the result, and the event trace. -/
def with_lock_run {T R : Type} (sched : Nat → Bool) (fuel : Nat) (d : T)
    (f : T → T × R) : Option (T × R × List Event) :=
  match lockRun sched fuel 0 0 true with
  | none => none
  | some (tr, _) =>
    some ((f d).1, (f d).2, tr ++ [Event.invoke, Event.store false MemOrder.release])

/-- `SpinLock::with_lock_timeout` (spin_lock.rs lines 113-118):
`self.lock_with_max_attempts()?`, then `f` on the payload, then
`self.unlock()`.  Returns the `Result`, the final payload, and the trace. -/
def with_lock_timeout_run {T R : Type} (sched : Nat → Bool) (fuel : Nat) (d : T)
    (f : T → T × R) : Option (Except String R × T × List Event) :=
  match lockMaxRun sched fuel 0 0 0 true with
  | none => none
  | some (Except.ok _, tr, _) =>
    some (Except.ok (f d).2, (f d).1,
          tr ++ [Event.invoke, Event.store false MemOrder.release])
  | some (Except.error e, tr, _) => some (Except.error e, d, tr)

/-- Local state of one thread running `loop { lock(); <critical>; unlock() }`:
`atCas freq` — in `lock`, about to run the `compare_exchange`;
`atLoad freq` — in `lock`'s wait loop, about to run the relaxed load;
`crit` — `lock` returned, the lease is held, next action is `unlock`. -/
inductive TState where
  | atCas (freq : Nat)
  | atLoad (freq : Nat)
  | crit
deriving DecidableEq, Repr

/-- One atomic access of a thread against the genuinely shared flag, compiled
from `lock` (spin_lock.rs lines 40-65) and `unlock` (lines 100-102).  Returns
the new flag and the new local state.  `atCas`: the CAS takes the flag exactly
when it is observed `false`.  `atLoad`: the wait loop spins (with the sleep
backoff advancing `freq`) while the flag reads `true`, else falls back to the
CAS.  `crit`: `unlock` stores `false` unconditionally and the thread restarts
`lock` with a fresh `freq = 0`. -/
def threadStep (flag : Bool) : TState → Bool × TState
  | TState.atCas freq =>
    if flag then (flag, TState.atLoad freq) else (true, TState.crit)
  | TState.atLoad freq =>
    if flag then (flag, TState.atLoad (sleepStep freq).2) else (flag, TState.atCas freq)
  | TState.crit => (false, TState.atCas 0)

/-- Global state of the interleaving semantics: the shared flag and each
thread's local state. -/
structure Sys where
  flag : Bool
  threads : List TState
deriving DecidableEq, Repr

/-- The scheduler lets thread `k` perform its next atomic access (out-of-range
`k` is a stutter step). -/
def sysStep (s : Sys) (k : Nat) : Sys :=
  match s.threads[k]? with
  | none => s
  | some t =>
    let ft := threadStep s.flag t
    { flag := ft.1, threads := s.threads.set k ft.2 }

/-- Run the interleaving semantics under a schedule (list of thread picks). -/
def runSys (s : Sys) : List Nat → Sys
  | [] => s
  | k :: ks => runSys (sysStep s k) ks

/-- `n` threads, each about to call `lock` on a freshly constructed lock
(flag free, as set by `SpinLock::new`). -/
def initSys (n : Nat) : Sys :=
  { flag := false, threads := List.replicate n (TState.atCas 0) }

/-- Does this thread currently hold the lease (between its successful CAS and
its `unlock`)? -/
def isCrit : TState → Bool
  | TState.crit => true
  | _ => false

/-- Number of threads currently holding the lease. -/
def critCount (s : Sys) : Nat :=
  s.threads.countP isCrit

/-- Count of inner-poll iterations recorded in a trace: loads that observed
the flag held.  This is exactly what the `attempts` counter of
`lock_with_max_attempts` counts. -/
def pollCount (tr : List Event) : Nat :=
  tr.countP (fun e => match e with
    | Event.load true _ => true
    | _ => false)

/-- Count of inner-poll iterations occurring before the flag is first observed
free (before the first `load false`) in a trace. -/
def pollsBeforeFree : List Event → Nat
  | [] => 0
  | Event.load false _ :: _ => 0
  | Event.load true _ :: tr => pollsBeforeFree tr + 1
  | _ :: tr => pollsBeforeFree tr

/-- Does the event acquire the flag (a successful CAS, which writes `true`)? -/
def acquiresFlag : Event → Bool
  | Event.cas false _ _ => true
  | _ => false

/-- Does the event write the flag at all (successful CAS or a store)? -/
def writesFlag : Event → Bool
  | Event.cas false _ _ => true
  | Event.store _ _ => true
  | _ => false

/-- Does the event touch the payload?  Only the scoped helpers' closure
invocation does. -/
def touchesData : Event → Bool
  | Event.invoke => true
  | _ => false

/-- Is the event a flag store (as performed by `unlock`)? -/
def isStoreEvent : Event → Bool
  | Event.store _ _ => true
  | _ => false

/-- Legal successive pairs of events in an execution of `lock`
(spin_lock.rs lines 40-65): a failed CAS is followed by a relaxed poll of the
wait loop; a poll observing `false` is followed by the re-attempted CAS
(acquire on success / relaxed on failure); a poll observing `true` is followed
by a yield; a yield by the next relaxed poll or by the 1 ms backoff sleep; a
sleep by the next relaxed poll. -/
def stepOk : Event → Event → Bool
  | Event.cas true _ _, Event.load _ MemOrder.relaxed => true
  | Event.load false MemOrder.relaxed, Event.cas _ MemOrder.acquire MemOrder.relaxed => true
  | Event.load true MemOrder.relaxed, Event.yieldNow => true
  | Event.yieldNow, Event.load _ MemOrder.relaxed => true
  | Event.yieldNow, Event.sleepMillis 1 => true
  | Event.sleepMillis _, Event.load _ MemOrder.relaxed => true
  | _, _ => false

/-- `lockShapeFrom e tr`: starting at event `e`, the remaining trace `tr`
keeps every adjacent pair legal (`stepOk`) and terminates exactly in a
successful CAS with acquire/relaxed orderings — i.e. the call returns only
upon a successful compare-and-swap. -/
def lockShapeFrom : Event → List Event → Bool
  | Event.cas false MemOrder.acquire MemOrder.relaxed, [] => true
  | _, [] => false
  | e, e' :: tr => stepOk e e' && lockShapeFrom e' tr

/-- A complete trace of `lock` is nonempty and well-shaped. -/
def lockShape : List Event → Bool
  | [] => false
  | e :: tr => lockShapeFrom e tr

/-- Invariant of the interleaving semantics: at most one thread holds the
lease, and while the flag is free no thread does. -/
def SysInv (s : Sys) : Prop :=
  critCount s ≤ 1 ∧ (s.flag = false → critCount s = 0)

/-! ## Helper lemmas -/

theorem spinWaitIteration_sleep (freq : Nat) (h : freq + 1 = SPIN_LOCK_SLEEP_ONE_FREQUENCY) :
    spinWaitIteration freq =
      ([Event.load true MemOrder.relaxed, Event.yieldNow, Event.sleepMillis 1], 0) := by
  simp [spinWaitIteration, sleepStep, USE_SLEEP_SPIN_LOCK, h]

theorem spinWaitIteration_noSleep (freq : Nat) (h : freq + 1 ≠ SPIN_LOCK_SLEEP_ONE_FREQUENCY) :
    spinWaitIteration freq =
      ([Event.load true MemOrder.relaxed, Event.yieldNow], freq + 1) := by
  simp [spinWaitIteration, sleepStep, USE_SLEEP_SPIN_LOCK, h]

theorem spinWaitIteration_mem (freq : Nat) (e : Event) (he : e ∈ (spinWaitIteration freq).1) :
    e = Event.load true MemOrder.relaxed ∨ e = Event.yieldNow ∨ e = Event.sleepMillis 1 := by
  by_cases h : freq + 1 = SPIN_LOCK_SLEEP_ONE_FREQUENCY
  · rw [spinWaitIteration_sleep freq h] at he
    simpa using he
  · rw [spinWaitIteration_noSleep freq h] at he
    simp at he
    rcases he with h1 | h2
    · exact Or.inl h1
    · exact Or.inr (Or.inl h2)

theorem lockRun_events (sched : Nat → Bool) :
    ∀ fuel i freq pc tr j, lockRun sched fuel i freq pc = some (tr, j) →
      ∀ e ∈ tr, touchesData e = false ∧ isStoreEvent e = false := by
  intro fuel
  induction fuel with
  | zero =>
    intro i freq pc tr j h
    simp [lockRun] at h
  | succ n ih =>
    intro i freq pc tr j h e he
    cases pc with
    | true =>
      simp only [lockRun] at h
      by_cases hs : sched i = false
      · rw [if_pos hs] at h
        simp only [Option.some.injEq, Prod.mk.injEq] at h
        rcases h with ⟨h1, _⟩
        subst h1
        simp at he
        subst he
        exact ⟨rfl, rfl⟩
      · rw [if_neg hs] at h
        rcases Option.map_eq_some'.mp h with ⟨p, hp, heq⟩
        simp only [Option.some.injEq, Prod.mk.injEq] at heq
        rcases heq with ⟨h1, _⟩
        subst h1
        rcases List.mem_cons.mp he with he1 | he2
        · subst he1; exact ⟨rfl, rfl⟩
        · exact ih (i + 1) freq false p.1 p.2 (by simpa using hp) e he2
    | false =>
      simp only [lockRun] at h
      by_cases hs : sched i = true
      · rw [if_pos hs] at h
        rcases Option.map_eq_some'.mp h with ⟨p, hp, heq⟩
        simp only [Option.some.injEq, Prod.mk.injEq] at heq
        rcases heq with ⟨h1, _⟩
        subst h1
        rcases List.mem_append.mp he with he1 | he2
        · rcases spinWaitIteration_mem freq e he1 with h | h | h <;>
            (subst h; exact ⟨rfl, rfl⟩)
        · exact ih (i + 1) (spinWaitIteration freq).2 false p.1 p.2 (by simpa using hp) e he2
      · rw [if_neg hs] at h
        rcases Option.map_eq_some'.mp h with ⟨p, hp, heq⟩
        simp only [Option.some.injEq, Prod.mk.injEq] at heq
        rcases heq with ⟨h1, _⟩
        subst h1
        rcases List.mem_cons.mp he with he1 | he2
        · subst he1; exact ⟨rfl, rfl⟩
        · exact ih (i + 1) freq true p.1 p.2 (by simpa using hp) e he2

theorem lockMaxRun_events (sched : Nat → Bool) :
    ∀ fuel i freq attempts pc r tr j,
      lockMaxRun sched fuel i freq attempts pc = some (r, tr, j) →
      ∀ e ∈ tr, touchesData e = false ∧ isStoreEvent e = false := by
  intro fuel
  induction fuel with
  | zero =>
    intro i freq attempts pc r tr j h
    simp [lockMaxRun] at h
  | succ n ih =>
    intro i freq attempts pc r tr j h e he
    cases pc with
    | true =>
      simp only [lockMaxRun] at h
      by_cases hs : sched i = false
      · rw [if_pos hs] at h
        simp only [Option.some.injEq, Prod.mk.injEq] at h
        rcases h with ⟨_, h2, _⟩
        subst h2
        simp at he
        subst he
        exact ⟨rfl, rfl⟩
      · rw [if_neg hs] at h
        rcases Option.map_eq_some'.mp h with ⟨p, hp, heq⟩
        simp only [Option.some.injEq, Prod.mk.injEq] at heq
        rcases heq with ⟨_, h2, _⟩
        subst h2
        rcases List.mem_cons.mp he with he1 | he2
        · subst he1; exact ⟨rfl, rfl⟩
        · exact ih (i + 1) freq attempts false p.1 p.2.1 p.2.2 (by simpa using hp) e he2
    | false =>
      simp only [lockMaxRun] at h
      by_cases hs : sched i = true
      · rw [if_pos hs] at h
        by_cases ha : attempts + 1 ≥ SPIN_LOCK_MAX_ATTEMPTS
        · rw [if_pos ha] at h
          simp only [Option.some.injEq, Prod.mk.injEq] at h
          rcases h with ⟨_, h2, _⟩
          subst h2
          rcases List.mem_cons.mp he with he1 | he2
          · subst he1; exact ⟨rfl, rfl⟩
          · simp at he2
            subst he2
            exact ⟨rfl, rfl⟩
        · rw [if_neg ha] at h
          rcases Option.map_eq_some'.mp h with ⟨p, hp, heq⟩
          simp only [Option.some.injEq, Prod.mk.injEq] at heq
          rcases heq with ⟨_, h2, _⟩
          subst h2
          rcases List.mem_append.mp he with he1 | he2
          · rcases spinWaitIteration_mem freq e he1 with h | h | h <;>
              (subst h; exact ⟨rfl, rfl⟩)
          · exact ih (i + 1) (spinWaitIteration freq).2 (attempts + 1) false p.1 p.2.1 p.2.2
              (by simpa using hp) e he2
      · rw [if_neg hs] at h
        rcases Option.map_eq_some'.mp h with ⟨p, hp, heq⟩
        simp only [Option.some.injEq, Prod.mk.injEq] at heq
        rcases heq with ⟨_, h2, _⟩
        subst h2
        rcases List.mem_cons.mp he with he1 | he2
        · subst he1; exact ⟨rfl, rfl⟩
        · exact ih (i + 1) freq attempts true p.1 p.2.1 p.2.2 (by simpa using hp) e he2

/-! ## Claim C2 -/

/-- C2 counterexample.  The claim says that on every 50th wait-loop iteration
the thread, *instead of yielding*, sleeps for 1 millisecond.  On the concrete
50th consecutive iteration (entered with `freq = 49`) the loop body of the
acquire operations still performs `thread::yield_now()` — and then
additionally sleeps — so the iteration is not a sleep *instead of* a yield. -/
theorem C2_counterexample :
    Event.yieldNow ∈ (spinWaitIteration 49).1 ∧
      Event.sleepMillis 1 ∈ (spinWaitIteration 49).1 := by
  decide

/-- C2 (amended): in the wait loop of the acquire operations a counter of
consecutive yield iterations is maintained, the thread yields on *every*
iteration, and on every 50th iteration it *additionally* (after the yield)
sleeps for 1 millisecond before resuming polling; the counter resets to zero
after each sleep and is incremented otherwise. -/
theorem C2_wait_loop_backoff :
    ∀ freq : Nat,
      Event.yieldNow ∈ (spinWaitIteration freq).1 ∧
      (freq + 1 = SPIN_LOCK_SLEEP_ONE_FREQUENCY →
        (spinWaitIteration freq).1 =
            [Event.load true MemOrder.relaxed, Event.yieldNow, Event.sleepMillis 1] ∧
          (spinWaitIteration freq).2 = 0) ∧
      (freq + 1 ≠ SPIN_LOCK_SLEEP_ONE_FREQUENCY →
        (spinWaitIteration freq).1 = [Event.load true MemOrder.relaxed, Event.yieldNow] ∧
          (spinWaitIteration freq).2 = freq + 1) := by
  intro freq
  by_cases h : freq + 1 = SPIN_LOCK_SLEEP_ONE_FREQUENCY
  · rw [spinWaitIteration_sleep freq h]
    refine ⟨by simp, fun _ => ⟨rfl, rfl⟩, fun hc => absurd h hc⟩
  · rw [spinWaitIteration_noSleep freq h]
    refine ⟨by simp, fun hc => absurd hc h, fun _ => ⟨rfl, rfl⟩⟩

/-- C2 witness: the 50th consecutive iteration (entered with `freq = 49`)
sleeps 1 ms after its yield and resets the counter to zero. -/
theorem C2_witness :
    (spinWaitIteration 49).1 =
        [Event.load true MemOrder.relaxed, Event.yieldNow, Event.sleepMillis 1] ∧
      (spinWaitIteration 49).2 = 0 :=
  (C2_wait_loop_backoff 49).2.1 (by decide)

/-! ## Claim C7 -/

/-- C7: `new(initial)` always succeeds, producing flag = free and payload =
`initial`; the first caller's acquire succeeds on its very first
compare-and-swap with zero wait: in the thread model the initial CAS goes
straight to the critical section (never reaching the wait-loop state), and
the oracle run of `lock` on an uncontended fresh flag is the single
successful CAS. -/
theorem C7_new_free :
    ∀ (T : Type) (d : T) (fuel k : Nat),
      (SpinLock.new d).lock_ = false ∧
      (SpinLock.new d).data = d ∧
      threadStep (SpinLock.new d).lock_ (TState.atCas k) = (true, TState.crit) ∧
      lockRun (fun _ => (SpinLock.new d).lock_) (fuel + 1) 0 0 true =
        some ([Event.cas false MemOrder.acquire MemOrder.relaxed], 1) := by
  intro T d fuel k
  exact ⟨rfl, rfl, rfl, rfl⟩

/-! ## Claim C8 -/

/-- C8: `unlock` stores `false` (free) into the flag with release ordering and
is infallible (it is total and its result flag is `false` for every input
state); after a successful acquire (reaching the critical section) followed by
`unlock`, the flag is free, so a subsequent acquire by any caller succeeds at
its CAS. -/
theorem C8_unlock_release :
    ∀ (T : Type) (s : SpinLock T) (f : Bool) (k : Nat),
      (SpinLock.unlock s).1.lock_ = false ∧
      (SpinLock.unlock s).2 = [Event.store false MemOrder.release] ∧
      threadStep f TState.crit = (false, TState.atCas 0) ∧
      threadStep (threadStep f TState.crit).1 (TState.atCas k) = (true, TState.crit) := by
  intro T s f k
  exact ⟨rfl, rfl, rfl, rfl⟩

/-! ## Claim C9 -/

/-- C9: `unlock` is unconditional and idempotent: it never inspects the
current flag (the result flag is `false` whatever the input state was, so
unlocking an already-free lock leaves it free), and two consecutive `unlock`s
leave the very same state as one. -/
theorem C9_unlock_idempotent :
    ∀ (T : Type) (s : SpinLock T),
      (SpinLock.unlock (SpinLock.unlock s).1).1 = (SpinLock.unlock s).1 ∧
      (SpinLock.unlock s).1.lock_ = false ∧
      (SpinLock.unlock s).1.data = s.data := by
  intro T s
  exact ⟨rfl, rfl, rfl⟩

theorem writesFlag_false_of (e : Event) (h1 : acquiresFlag e = false)
    (h2 : isStoreEvent e = false) : writesFlag e = false := by
  cases e with
  | cas obs s f =>
    cases obs
    · exact absurd h1 (by simp [acquiresFlag])
    · rfl
  | load v o => rfl
  | store v o => exact absurd h2 (by simp [isStoreEvent])
  | yieldNow => rfl
  | sleepMillis n => rfl
  | invoke => rfl

theorem pollCount_spin (freq : Nat) : pollCount (spinWaitIteration freq).1 = 1 := by
  by_cases h : freq + 1 = SPIN_LOCK_SLEEP_ONE_FREQUENCY
  · rw [spinWaitIteration_sleep freq h]; decide
  · rw [spinWaitIteration_noSleep freq h]
    show pollCount [Event.load true MemOrder.relaxed, Event.yieldNow] = 1
    decide

theorem lockMaxRun_spec (sched : Nat → Bool) :
    ∀ fuel i freq attempts pc r tr j,
      attempts < SPIN_LOCK_MAX_ATTEMPTS →
      lockMaxRun sched fuel i freq attempts pc = some (r, tr, j) →
      (∀ e', r = Except.error e' → e' = maxAttemptsMsg) ∧
      (r = Except.error maxAttemptsMsg →
        attempts + pollCount tr = SPIN_LOCK_MAX_ATTEMPTS ∧ ∀ e ∈ tr, acquiresFlag e = false) ∧
      (∀ u, r = Except.ok u → attempts + pollCount tr < SPIN_LOCK_MAX_ATTEMPTS) := by
  intro fuel
  induction fuel with
  | zero =>
    intro i freq attempts pc r tr j _ h
    simp [lockMaxRun] at h
  | succ n ih =>
    intro i freq attempts pc r tr j ha h
    cases pc with
    | true =>
      simp only [lockMaxRun] at h
      by_cases hs : sched i = false
      · rw [if_pos hs] at h
        simp only [Option.some.injEq, Prod.mk.injEq] at h
        rcases h with ⟨hr, htr, _⟩
        subst hr; subst htr
        have hpc : pollCount [Event.cas false MemOrder.acquire MemOrder.relaxed] = 0 := by decide
        refine ⟨fun e' he' => ?_, fun hmsg => ?_, fun u _ => ?_⟩
        · simp at he'
        · simp at hmsg
        · omega
      · rw [if_neg hs] at h
        rcases Option.map_eq_some'.mp h with ⟨p, hp, heq⟩
        simp only [Option.some.injEq, Prod.mk.injEq] at heq
        rcases heq with ⟨hr, htr, _⟩
        subst hr; subst htr
        obtain ⟨ih1, ih2, ih3⟩ :=
          ih (i + 1) freq attempts false p.1 p.2.1 p.2.2 ha (by simpa using hp)
        have hpc : pollCount (Event.cas true MemOrder.acquire MemOrder.relaxed :: p.2.1) =
            pollCount p.2.1 := by
          simp [pollCount, List.countP_cons]
        refine ⟨ih1, fun hmsg => ?_, fun u hu => ?_⟩
        · obtain ⟨h1, h2⟩ := ih2 hmsg
          refine ⟨by omega, ?_⟩
          intro e he
          rcases List.mem_cons.mp he with he1 | he2
          · subst he1; rfl
          · exact h2 e he2
        · have := ih3 u hu
          omega
    | false =>
      simp only [lockMaxRun] at h
      by_cases hs : sched i = true
      · rw [if_pos hs] at h
        by_cases hErr : attempts + 1 ≥ SPIN_LOCK_MAX_ATTEMPTS
        · rw [if_pos hErr] at h
          simp only [Option.some.injEq, Prod.mk.injEq] at h
          rcases h with ⟨hr, htr, _⟩
          subst hr; subst htr
          have hpc : pollCount [Event.load true MemOrder.relaxed, Event.yieldNow] = 1 := by
            decide
          refine ⟨fun e' he' => ?_, fun _ => ⟨by omega, ?_⟩, fun u hu => by cases hu⟩
          · injection he' with hh
            exact hh.symm
          · intro e he
            simp only [List.mem_cons, List.mem_singleton] at he
            rcases he with he | he | he
            · subst he; rfl
            · subst he; rfl
            · simp at he
        · rw [if_neg hErr] at h
          rcases Option.map_eq_some'.mp h with ⟨p, hp, heq⟩
          simp only [Option.some.injEq, Prod.mk.injEq] at heq
          rcases heq with ⟨hr, htr, _⟩
          subst hr; subst htr
          have ha' : attempts + 1 < SPIN_LOCK_MAX_ATTEMPTS := by omega
          obtain ⟨ih1, ih2, ih3⟩ :=
            ih (i + 1) (spinWaitIteration freq).2 (attempts + 1) false p.1 p.2.1 p.2.2
              ha' (by simpa using hp)
          have hpc : pollCount ((spinWaitIteration freq).1 ++ p.2.1) =
              1 + pollCount p.2.1 := by
            have h1 := pollCount_spin freq
            simp only [pollCount, List.countP_append] at h1 ⊢
            omega
          refine ⟨ih1, fun hmsg => ?_, fun u hu => ?_⟩
          · obtain ⟨h1, h2⟩ := ih2 hmsg
            refine ⟨by omega, ?_⟩
            intro e he
            rcases List.mem_append.mp he with he1 | he2
            · rcases spinWaitIteration_mem freq e he1 with h' | h' | h' <;> (subst h'; rfl)
            · exact h2 e he2
          · have := ih3 u hu
            omega
      · rw [if_neg hs] at h
        rcases Option.map_eq_some'.mp h with ⟨p, hp, heq⟩
        simp only [Option.some.injEq, Prod.mk.injEq] at heq
        rcases heq with ⟨hr, htr, _⟩
        subst hr; subst htr
        obtain ⟨ih1, ih2, ih3⟩ :=
          ih (i + 1) freq attempts true p.1 p.2.1 p.2.2 ha (by simpa using hp)
        have hpc : pollCount (Event.load false MemOrder.relaxed :: p.2.1) =
            pollCount p.2.1 := by
          simp [pollCount, List.countP_cons]
        refine ⟨ih1, fun hmsg => ?_, fun u hu => ?_⟩
        · obtain ⟨h1, h2⟩ := ih2 hmsg
          refine ⟨by omega, ?_⟩
          intro e he
          rcases List.mem_cons.mp he with he1 | he2
          · subst he1; rfl
          · exact h2 e he2
        · have := ih3 u hu
          omega

/-! ## Claim C1 -/

set_option maxRecDepth 4000

/-- C1 counterexample.  The claim says the call returns the timeout failure
*exactly when* its counter of total inner-poll iterations reaches 500 *before
the flag is observed free*.  Under the schedule that shows the flag free at the
second atomic access only (`fun i => i != 1`), the call observes the flag free
after 0 inner polls, loses the re-attempted CAS, and then waits out the whole
budget: it returns `Err` although the counter had reached only 0 — far short
of 500 — before the flag was observed free.  So the "exactly when" fails in
the only-if direction. -/
theorem C1_counterexample :
    (lockMaxRun (fun i => i != 1) 503 0 0 0 true).map
        (fun p => (p.1, pollsBeforeFree p.2.1)) =
      some (Except.error maxAttemptsMsg, 0) ∧
    (0 : Nat) < SPIN_LOCK_MAX_ATTEMPTS := by
  exact ⟨rfl, by decide⟩

/-- C1 (amended): a call to `lock_with_max_attempts` returns the timeout
failure (with diagnostic `maxAttemptsMsg`, saying the maximum number of
attempts was exceeded) exactly when its counter of total inner-poll iterations
reaches 500 — regardless of whether the flag was observed free during an
earlier wait whose re-attempted CAS lost the race; on that failure the lock is
not acquired and the flag is left exactly as found (the trace contains no
flag write and no payload access), and otherwise the call returns success with
no value, having spent fewer than 500 inner polls. -/
theorem C1_timeout_iff :
    ∀ (sched : Nat → Bool) (fuel : Nat) (r : Except String Unit) (tr : List Event) (j : Nat),
      lockMaxRun sched fuel 0 0 0 true = some (r, tr, j) →
      ((r = Except.error maxAttemptsMsg) ↔ pollCount tr = SPIN_LOCK_MAX_ATTEMPTS) ∧
      (r = Except.error maxAttemptsMsg →
        ∀ e ∈ tr, writesFlag e = false ∧ touchesData e = false) ∧
      (r ≠ Except.error maxAttemptsMsg →
        r = Except.ok () ∧ pollCount tr < SPIN_LOCK_MAX_ATTEMPTS) := by
  intro sched fuel r tr j h
  obtain ⟨s1, s2, s3⟩ := lockMaxRun_spec sched fuel 0 0 0 true r tr j (by decide) h
  have hav := lockMaxRun_events sched fuel 0 0 0 true r tr j h
  refine ⟨⟨fun hmsg => ?_, fun hpc => ?_⟩, fun hmsg e he => ?_, fun hne => ?_⟩
  · have := (s2 hmsg).1
    omega
  · cases r with
    | ok u =>
      have h3 := s3 u rfl
      exact absurd hpc (by omega)
    | error e => rw [s1 e rfl]
  · exact ⟨writesFlag_false_of e ((s2 hmsg).2 e he) (hav e he).2, (hav e he).1⟩
  · cases r with
    | ok u =>
      have h3 := s3 u rfl
      exact ⟨rfl, by omega⟩
    | error e => exact absurd (by rw [s1 e rfl]) hne

/-- C1 witness: on the uncontended schedule the call acquires at its first CAS
with zero inner polls, the timeout diagnostic is not returned, and the result
is success with no value. -/
theorem C1_witness :
    (((Except.ok () : Except String Unit) = Except.error maxAttemptsMsg) ↔
        pollCount [Event.cas false MemOrder.acquire MemOrder.relaxed] =
          SPIN_LOCK_MAX_ATTEMPTS) ∧
    ((Except.ok () : Except String Unit) = Except.ok () ∧
      pollCount [Event.cas false MemOrder.acquire MemOrder.relaxed] <
        SPIN_LOCK_MAX_ATTEMPTS) :=
  ⟨(C1_timeout_iff (fun _ => false) 1 (Except.ok ())
      [Event.cas false MemOrder.acquire MemOrder.relaxed] 1 rfl).1,
   (C1_timeout_iff (fun _ => false) 1 (Except.ok ())
      [Event.cas false MemOrder.acquire MemOrder.relaxed] 1 rfl).2.2
     (fun hc => Except.noConfusion hc)⟩

/-! ## Claim C4 -/

theorem lockMaxRun_succ_true (sched : Nat → Bool) (fuel i freq attempts : Nat) :
    lockMaxRun sched (fuel + 1) i freq attempts true =
      if sched i = false then
        some (Except.ok (), [Event.cas false MemOrder.acquire MemOrder.relaxed], i + 1)
      else
        (lockMaxRun sched fuel (i + 1) freq attempts false).map
          (fun p => (p.1, Event.cas true MemOrder.acquire MemOrder.relaxed :: p.2.1, p.2.2)) :=
  rfl

theorem lockMaxRun_allHeld (sched : Nat → Bool) (hs : ∀ i, sched i = true) :
    ∀ k, 1 ≤ k → k ≤ SPIN_LOCK_MAX_ATTEMPTS → ∀ fuel i freq,
      ∃ tr j,
        lockMaxRun sched (k + fuel) i freq (SPIN_LOCK_MAX_ATTEMPTS - k) false =
            some (Except.error maxAttemptsMsg, tr, j) ∧
          pollCount tr = k ∧
          ∀ e ∈ tr, writesFlag e = false ∧ touchesData e = false := by
  intro k
  induction k with
  | zero => intro h1 _; omega
  | succ m ihm =>
    intro _ hk fuel i freq
    by_cases hm : m = 0
    · subst hm
      refine ⟨[Event.load true MemOrder.relaxed, Event.yieldNow], i + 1, ?_, by decide, ?_⟩
      · have hf : 0 + 1 + fuel = fuel + 1 := by omega
        rw [hf]
        simp only [lockMaxRun]
        rw [if_pos (hs i)]
        rw [if_pos (by omega : SPIN_LOCK_MAX_ATTEMPTS - (0 + 1) + 1 ≥ SPIN_LOCK_MAX_ATTEMPTS)]
      · intro e he
        simp only [List.mem_cons, List.mem_singleton] at he
        rcases he with he | he | he
        · subst he; exact ⟨rfl, rfl⟩
        · subst he; exact ⟨rfl, rfl⟩
        · simp at he
    · have hm1 : 1 ≤ m := Nat.one_le_iff_ne_zero.mpr hm
      obtain ⟨tr', j', hrun', hpoll', hev'⟩ :=
        ihm hm1 (by omega) fuel (i + 1) (spinWaitIteration freq).2
      refine ⟨(spinWaitIteration freq).1 ++ tr', j', ?_, ?_, ?_⟩
      · have hf : m + 1 + fuel = (m + fuel) + 1 := by omega
        rw [hf]
        simp only [lockMaxRun]
        rw [if_pos (hs i)]
        rw [if_neg (by omega :
          ¬ SPIN_LOCK_MAX_ATTEMPTS - (m + 1) + 1 ≥ SPIN_LOCK_MAX_ATTEMPTS)]
        have hatt : SPIN_LOCK_MAX_ATTEMPTS - (m + 1) + 1 = SPIN_LOCK_MAX_ATTEMPTS - m := by
          omega
        rw [hatt, hrun']
        rfl
      · have h1 := pollCount_spin freq
        simp only [pollCount, List.countP_append] at h1 hpoll' ⊢
        omega
      · intro e he
        rcases List.mem_append.mp he with he1 | he2
        · rcases spinWaitIteration_mem freq e he1 with h' | h' | h' <;>
            (subst h'; exact ⟨rfl, rfl⟩)
        · exact hev' e he2

/-- C4: whenever the flag remains held — every atomic access of the call
observes it `true` — `lock_with_max_attempts` terminates within its bounded
budget: with any fuel of at least 502 atomic accesses the run completes
(never blocks indefinitely), returns the timeout failure, has spent exactly
500 inner-poll iterations, and its trace mutates neither the flag (no write
event) nor the payload. -/
theorem C4_bounded_failure :
    ∀ (sched : Nat → Bool), (∀ i, sched i = true) → ∀ fuel : Nat,
      (lockMaxRun sched (502 + fuel) 0 0 0 true).map
          (fun p => (p.1, pollCount p.2.1,
            p.2.1.countP writesFlag, p.2.1.countP touchesData)) =
        some (Except.error maxAttemptsMsg, SPIN_LOCK_MAX_ATTEMPTS, 0, 0) := by
  intro sched hs fuel
  obtain ⟨tr', j', hrun', hpoll', hev'⟩ :=
    lockMaxRun_allHeld sched hs SPIN_LOCK_MAX_ATTEMPTS (by decide) (by omega) (fuel + 1) 1 0
  have h0 : SPIN_LOCK_MAX_ATTEMPTS - SPIN_LOCK_MAX_ATTEMPTS = 0 := by omega
  rw [h0] at hrun'
  have hf : 502 + fuel = (SPIN_LOCK_MAX_ATTEMPTS + (fuel + 1)) + 1 := by
    show 502 + fuel = 500 + (fuel + 1) + 1
    omega
  rw [hf, lockMaxRun_succ_true]
  rw [if_neg (by simp [hs 0])]
  rw [hrun']
  simp only [Option.map_some', Option.some.injEq, Prod.mk.injEq]
  have hw : ∀ e ∈ Event.cas true MemOrder.acquire MemOrder.relaxed :: tr',
      writesFlag e = false ∧ touchesData e = false := by
    intro e he
    rcases List.mem_cons.mp he with he1 | he2
    · subst he1; exact ⟨rfl, rfl⟩
    · exact hev' e he2
  refine ⟨trivial, ?_, ?_, ?_⟩
  · have hc : pollCount (Event.cas true MemOrder.acquire MemOrder.relaxed :: tr') =
        pollCount tr' := by
      simp [pollCount, List.countP_cons]
    rw [hc, hpoll']
  · rw [List.countP_eq_zero]
    intro e he
    simp [(hw e he).1]
  · rw [List.countP_eq_zero]
    intro e he
    simp [(hw e he).2]

/-- C4 witness: with the everywhere-held schedule and fuel 502 the bounded
acquire returns the timeout failure after exactly 500 inner polls, with no
flag write and no payload access. -/
theorem C4_witness :
    (lockMaxRun (fun _ => true) (502 + 0) 0 0 0 true).map
        (fun p => (p.1, pollCount p.2.1,
          p.2.1.countP writesFlag, p.2.1.countP touchesData)) =
      some (Except.error maxAttemptsMsg, SPIN_LOCK_MAX_ATTEMPTS, 0, 0) :=
  C4_bounded_failure (fun _ => true) (fun _ => rfl) 0

/-! ## Claim C3 -/

theorem stepOk_casFail_load (v : Bool) (s f : MemOrder) :
    stepOk (Event.cas true s f) (Event.load v MemOrder.relaxed) = true := by
  cases v <;> cases s <;> cases f <;> rfl

theorem stepOk_loadFalse_cas (v : Bool) :
    stepOk (Event.load false MemOrder.relaxed)
      (Event.cas v MemOrder.acquire MemOrder.relaxed) = true := by
  cases v <;> rfl

theorem stepOk_yield_load (v : Bool) :
    stepOk Event.yieldNow (Event.load v MemOrder.relaxed) = true := by
  cases v <;> rfl

theorem stepOk_sleep_load (n : Nat) (v : Bool) :
    stepOk (Event.sleepMillis n) (Event.load v MemOrder.relaxed) = true := by
  cases v <;> rfl

theorem lockRun_shape_aux (sched : Nat → Bool) :
    ∀ fuel i freq pc tr j, lockRun sched fuel i freq pc = some (tr, j) →
      ∃ e tr', tr = e :: tr' ∧ lockShapeFrom e tr' = true ∧
        (e :: tr').getLast? = some (Event.cas false MemOrder.acquire MemOrder.relaxed) ∧
        (pc = true → e = Event.cas (sched i) MemOrder.acquire MemOrder.relaxed) ∧
        (pc = false → e = Event.load (sched i) MemOrder.relaxed) := by
  intro fuel
  induction fuel with
  | zero => intro i freq pc tr j h; simp [lockRun] at h
  | succ n ih =>
    intro i freq pc tr j h
    cases pc with
    | true =>
      simp only [lockRun] at h
      by_cases hs : sched i = false
      · rw [if_pos hs] at h
        simp only [Option.some.injEq, Prod.mk.injEq] at h
        rcases h with ⟨htr, _⟩
        subst htr
        exact ⟨Event.cas false MemOrder.acquire MemOrder.relaxed, [], rfl, rfl, rfl,
          fun _ => by rw [hs], fun hc => absurd hc (by simp)⟩
      · rw [if_neg hs] at h
        have hs' : sched i = true := by revert hs; cases sched i <;> simp
        rcases Option.map_eq_some'.mp h with ⟨p, hp, heq⟩
        simp only [Option.some.injEq, Prod.mk.injEq] at heq
        rcases heq with ⟨htr, _⟩
        subst htr
        obtain ⟨e₀, tr₀, hp1, hp2, hp3, _, hp5⟩ :=
          ih (i + 1) freq false p.1 p.2 (by simpa using hp)
        have he₀ := hp5 rfl
        subst he₀
        rw [hp1]
        refine ⟨Event.cas true MemOrder.acquire MemOrder.relaxed,
          Event.load (sched (i + 1)) MemOrder.relaxed :: tr₀, rfl, ?_, ?_,
          fun _ => by rw [hs'], fun hc => absurd hc (by simp)⟩
        · show (stepOk (Event.cas true MemOrder.acquire MemOrder.relaxed)
              (Event.load (sched (i + 1)) MemOrder.relaxed) &&
            lockShapeFrom (Event.load (sched (i + 1)) MemOrder.relaxed) tr₀) = true
          rw [stepOk_casFail_load, hp2]
          decide
        · rw [List.getLast?_cons_cons]
          exact hp3
    | false =>
      simp only [lockRun] at h
      by_cases hs : sched i = true
      · rw [if_pos hs] at h
        rcases Option.map_eq_some'.mp h with ⟨p, hp, heq⟩
        simp only [Option.some.injEq, Prod.mk.injEq] at heq
        rcases heq with ⟨htr, _⟩
        subst htr
        obtain ⟨e₀, tr₀, hp1, hp2, hp3, _, hp5⟩ :=
          ih (i + 1) (spinWaitIteration freq).2 false p.1 p.2 (by simpa using hp)
        have he₀ := hp5 rfl
        subst he₀
        rw [hp1]
        by_cases hfreq : freq + 1 = SPIN_LOCK_SLEEP_ONE_FREQUENCY
        · rw [spinWaitIteration_sleep freq hfreq]
          refine ⟨Event.load true MemOrder.relaxed,
            Event.yieldNow :: Event.sleepMillis 1 ::
              Event.load (sched (i + 1)) MemOrder.relaxed :: tr₀, rfl, ?_, ?_,
            fun hc => absurd hc (by simp), fun _ => by rw [hs]⟩
          · show (stepOk (Event.load true MemOrder.relaxed) Event.yieldNow &&
              (stepOk Event.yieldNow (Event.sleepMillis 1) &&
               (stepOk (Event.sleepMillis 1) (Event.load (sched (i + 1)) MemOrder.relaxed) &&
                lockShapeFrom (Event.load (sched (i + 1)) MemOrder.relaxed) tr₀))) = true
            rw [stepOk_sleep_load, hp2]
            decide
          · rw [List.getLast?_cons_cons, List.getLast?_cons_cons, List.getLast?_cons_cons]
            exact hp3
        · rw [spinWaitIteration_noSleep freq hfreq]
          refine ⟨Event.load true MemOrder.relaxed,
            Event.yieldNow :: Event.load (sched (i + 1)) MemOrder.relaxed :: tr₀, rfl, ?_, ?_,
            fun hc => absurd hc (by simp), fun _ => by rw [hs]⟩
          · show (stepOk (Event.load true MemOrder.relaxed) Event.yieldNow &&
              (stepOk Event.yieldNow (Event.load (sched (i + 1)) MemOrder.relaxed) &&
               lockShapeFrom (Event.load (sched (i + 1)) MemOrder.relaxed) tr₀)) = true
            rw [stepOk_yield_load, hp2]
            decide
          · rw [List.getLast?_cons_cons, List.getLast?_cons_cons]
            exact hp3
      · rw [if_neg hs] at h
        have hs' : sched i = false := by revert hs; cases sched i <;> simp
        rcases Option.map_eq_some'.mp h with ⟨p, hp, heq⟩
        simp only [Option.some.injEq, Prod.mk.injEq] at heq
        rcases heq with ⟨htr, _⟩
        subst htr
        obtain ⟨e₀, tr₀, hp1, hp2, hp3, hp4, _⟩ :=
          ih (i + 1) freq true p.1 p.2 (by simpa using hp)
        have he₀ := hp4 rfl
        subst he₀
        rw [hp1]
        refine ⟨Event.load false MemOrder.relaxed,
          Event.cas (sched (i + 1)) MemOrder.acquire MemOrder.relaxed :: tr₀, rfl, ?_, ?_,
          fun hc => absurd hc (by simp), fun _ => by rw [hs']⟩
        · show (stepOk (Event.load false MemOrder.relaxed)
              (Event.cas (sched (i + 1)) MemOrder.acquire MemOrder.relaxed) &&
            lockShapeFrom (Event.cas (sched (i + 1)) MemOrder.acquire MemOrder.relaxed) tr₀) = true
          rw [stepOk_loadFalse_cas, hp2]
          decide
        · rw [List.getLast?_cons_cons]
          exact hp3

/-- C3: `lock` follows the specified algorithm.  Any complete run's trace
starts with a compare-and-swap (acquire ordering on success, relaxed on
failure) of the flag at the value the environment currently shows; every
adjacent pair of actions is legal (`stepOk`: failed CAS → relaxed poll; poll
observing held → yield; yield → next relaxed poll or backoff sleep; sleep →
next relaxed poll; poll observing free → re-attempted CAS rather than assumed
acquisition); the trace ends — and the call returns — only at a successful
CAS; and when the very first CAS observes the flag free the call returns
immediately with that single event. -/
theorem C3_lock_algorithm :
    ∀ (sched : Nat → Bool) (fuel : Nat) (tr : List Event) (j : Nat),
      lockRun sched fuel 0 0 true = some (tr, j) →
      lockShape tr = true ∧
      tr.head? = some (Event.cas (sched 0) MemOrder.acquire MemOrder.relaxed) ∧
      tr.getLast? = some (Event.cas false MemOrder.acquire MemOrder.relaxed) ∧
      (sched 0 = false → tr = [Event.cas false MemOrder.acquire MemOrder.relaxed]) := by
  intro sched fuel tr j h
  obtain ⟨e, tr', h1, h2, h3, h4, _⟩ := lockRun_shape_aux sched fuel 0 0 true tr j h
  have he := h4 rfl
  subst h1
  refine ⟨h2, ?_, h3, ?_⟩
  · rw [List.head?_cons, he]
  · intro h0
    cases fuel with
    | zero => simp [lockRun] at h
    | succ n =>
      simp only [lockRun] at h
      rw [if_pos h0] at h
      simp only [Option.some.injEq, Prod.mk.injEq] at h
      exact h.1.symm

/-- C3 witness: on an uncontended schedule with fuel 1 the run is the single
successful acquire CAS. -/
theorem C3_witness :
    lockShape [Event.cas false MemOrder.acquire MemOrder.relaxed] = true ∧
    [Event.cas false MemOrder.acquire MemOrder.relaxed].head? =
      some (Event.cas false MemOrder.acquire MemOrder.relaxed) ∧
    [Event.cas false MemOrder.acquire MemOrder.relaxed].getLast? =
      some (Event.cas false MemOrder.acquire MemOrder.relaxed) ∧
    (false = false →
      [Event.cas false MemOrder.acquire MemOrder.relaxed] =
        [Event.cas false MemOrder.acquire MemOrder.relaxed]) :=
  C3_lock_algorithm (fun _ => false) 1 [Event.cas false MemOrder.acquire MemOrder.relaxed] 1 rfl

/-! ## Claim C6 -/

theorem countP_set_eq (p : TState → Bool) :
    ∀ (l : List TState) (k : Nat) (t : TState), l[k]? = some t →
      ∀ t' : TState,
        (l.set k t').countP p + (if p t then 1 else 0) =
          l.countP p + (if p t' then 1 else 0) := by
  intro l
  induction l with
  | nil => intro k t h t'; simp at h
  | cons a l ihl =>
    intro k t h t'
    cases k with
    | zero =>
      simp only [List.getElem?_cons_zero, Option.some.injEq] at h
      subst h
      rw [List.set_cons_zero]
      simp only [List.countP_cons]
      omega
    | succ m =>
      simp only [List.getElem?_cons_succ] at h
      rw [List.set_cons_succ]
      simp only [List.countP_cons]
      have := ihl m t h t'
      omega

theorem countP_two_le (p : TState → Bool) :
    ∀ (l : List TState) (i j : Nat) (t u : TState), i ≠ j →
      l[i]? = some t → l[j]? = some u → p t = true → p u = true →
      2 ≤ l.countP p := by
  intro l
  induction l with
  | nil => intro i j t u _ hi _ _ _; simp at hi
  | cons a l ihl =>
    intro i j t u hij hi hj hpt hpu
    cases i with
    | zero =>
      cases j with
      | zero => exact absurd rfl hij
      | succ m =>
        simp only [List.getElem?_cons_zero, Option.some.injEq] at hi
        subst hi
        simp only [List.getElem?_cons_succ] at hj
        have h1 : 0 < l.countP p :=
          List.countP_pos_iff.mpr ⟨u, List.getElem?_mem hj, hpu⟩
        rw [List.countP_cons, if_pos hpt]
        omega
    | succ m =>
      cases j with
      | zero =>
        simp only [List.getElem?_cons_zero, Option.some.injEq] at hj
        subst hj
        simp only [List.getElem?_cons_succ] at hi
        have h1 : 0 < l.countP p :=
          List.countP_pos_iff.mpr ⟨t, List.getElem?_mem hi, hpt⟩
        rw [List.countP_cons, if_pos hpu]
        omega
      | succ m' =>
        have hij' : m ≠ m' := fun hc => hij (by rw [hc])
        simp only [List.getElem?_cons_succ] at hi hj
        have h2 := ihl m m' t u hij' hi hj hpt hpu
        rw [List.countP_cons]
        omega

theorem sysStep_inv (s : Sys) (k : Nat) (h : SysInv s) : SysInv (sysStep s k) := by
  obtain ⟨h1, h2⟩ := h
  simp only [critCount] at h1 h2
  unfold sysStep
  cases hk : s.threads[k]? with
  | none => exact ⟨h1, h2⟩
  | some t =>
    cases t with
    | atCas freq =>
      have hset := countP_set_eq isCrit s.threads k (TState.atCas freq) hk
      cases hf : s.flag with
      | true =>
        rw [hf] at h2
        refine ⟨?_, fun hc => Bool.noConfusion hc⟩
        show (s.threads.set k (TState.atLoad freq)).countP isCrit ≤ 1
        have := hset (TState.atLoad freq)
        simp [isCrit] at this
        omega
      | false =>
        rw [hf] at h2
        have hz : s.threads.countP isCrit = 0 := h2 rfl
        refine ⟨?_, fun hc => Bool.noConfusion hc⟩
        show (s.threads.set k TState.crit).countP isCrit ≤ 1
        have := hset TState.crit
        simp [isCrit] at this
        omega
    | atLoad freq =>
      have hset := countP_set_eq isCrit s.threads k (TState.atLoad freq) hk
      cases hf : s.flag with
      | true =>
        rw [hf] at h2
        refine ⟨?_, fun hc => Bool.noConfusion hc⟩
        show (s.threads.set k (TState.atLoad (sleepStep freq).2)).countP isCrit ≤ 1
        have := hset (TState.atLoad (sleepStep freq).2)
        simp [isCrit] at this
        omega
      | false =>
        rw [hf] at h2
        have hz : s.threads.countP isCrit = 0 := h2 rfl
        refine ⟨?_, fun _ => ?_⟩
        · show (s.threads.set k (TState.atCas freq)).countP isCrit ≤ 1
          have := hset (TState.atCas freq)
          simp [isCrit] at this
          omega
        · show (s.threads.set k (TState.atCas freq)).countP isCrit = 0
          have := hset (TState.atCas freq)
          simp [isCrit] at this
          omega
    | crit =>
      have hset := countP_set_eq isCrit s.threads k TState.crit hk
      have hone : 0 < s.threads.countP isCrit :=
        List.countP_pos_iff.mpr ⟨TState.crit, List.getElem?_mem hk, rfl⟩
      refine ⟨?_, fun _ => ?_⟩
      · show (s.threads.set k (TState.atCas 0)).countP isCrit ≤ 1
        have := hset (TState.atCas 0)
        simp [isCrit] at this
        omega
      · show (s.threads.set k (TState.atCas 0)).countP isCrit = 0
        have := hset (TState.atCas 0)
        simp [isCrit] at this
        omega

theorem runSys_inv : ∀ (ks : List Nat) (s : Sys), SysInv s → SysInv (runSys s ks) := by
  intro ks
  induction ks with
  | nil => intro s h; exact h
  | cons k ks ihk => intro s h; exact ihk (sysStep s k) (sysStep_inv s k h)

theorem initSys_inv (n : Nat) : SysInv (initSys n) := by
  constructor
  · show (List.replicate n (TState.atCas 0)).countP isCrit ≤ 1
    rw [List.countP_replicate]
    simp [isCrit]
  · intro _
    show (List.replicate n (TState.atCas 0)).countP isCrit = 0
    rw [List.countP_replicate]
    simp [isCrit]

/-- C6: mutual exclusion.  Starting `n` threads, each looping
`lock(); <critical section>; unlock()`, from a fresh lock, under every
interleaving (every schedule `ks` of atomic accesses) at most one thread is in
its lease interval (between its successful CAS and its release) at any time;
in particular two distinct threads are never simultaneously lease holders, so
the lease intervals are pairwise disjoint. -/
theorem C6_mutual_exclusion :
    ∀ (n : Nat) (ks : List Nat),
      critCount (runSys (initSys n) ks) ≤ 1 ∧
      ∀ i j : Nat, i ≠ j →
        isCrit ((runSys (initSys n) ks).threads.getD i (TState.atCas 0)) = false ∨
        isCrit ((runSys (initSys n) ks).threads.getD j (TState.atCas 0)) = false := by
  intro n ks
  have hinv : SysInv (runSys (initSys n) ks) := runSys_inv ks (initSys n) (initSys_inv n)
  refine ⟨hinv.1, ?_⟩
  intro i j hij
  by_contra hc
  push_neg at hc
  rcases hc with ⟨hc1, hc2⟩
  have hb1 : isCrit ((runSys (initSys n) ks).threads.getD i (TState.atCas 0)) = true := by
    revert hc1; cases isCrit ((runSys (initSys n) ks).threads.getD i (TState.atCas 0)) <;> simp
  have hb2 : isCrit ((runSys (initSys n) ks).threads.getD j (TState.atCas 0)) = true := by
    revert hc2; cases isCrit ((runSys (initSys n) ks).threads.getD j (TState.atCas 0)) <;> simp
  rw [List.getD_eq_getElem?_getD] at hb1 hb2
  cases hvi : (runSys (initSys n) ks).threads[i]? with
  | none => rw [hvi] at hb1; simp [isCrit] at hb1
  | some ti =>
    cases hvj : (runSys (initSys n) ks).threads[j]? with
    | none => rw [hvj] at hb2; simp [isCrit] at hb2
    | some tj =>
      rw [hvi] at hb1
      rw [hvj] at hb2
      simp only [Option.getD_some] at hb1 hb2
      have h2le := countP_two_le isCrit (runSys (initSys n) ks).threads i j ti tj hij
        hvi hvj hb1 hb2
      have hle1 : (runSys (initSys n) ks).threads.countP isCrit ≤ 1 := hinv.1
      omega

/-- C6 witness: two threads, one scheduled step (thread 0 acquires); thread 0
and thread 1 are not both lease holders. -/
theorem C6_witness :
    critCount (runSys (initSys 2) [0]) ≤ 1 ∧
    (isCrit ((runSys (initSys 2) [0]).threads.getD 0 (TState.atCas 0)) = false ∨
      isCrit ((runSys (initSys 2) [0]).threads.getD 1 (TState.atCas 0)) = false) :=
  ⟨(C6_mutual_exclusion 2 [0]).1, (C6_mutual_exclusion 2 [0]).2 0 1 (by decide)⟩

/-! ## Claim C5 -/

/-- C5: the scoped helpers.  `with_lock` acquires (unbounded), invokes the
caller's computation exactly once on the payload (exactly one `invoke` event),
releases before returning (the final event is the release store), and returns
the computation's result with the payload updated by it.  `with_lock_timeout`
does the same after a successful bounded acquire, and on a bounded-acquisition
failure propagates exactly the acquire's error to its caller with the payload
untouched, no computation invocation, and no release store. -/
theorem C5_scoped_helpers :
    ∀ (T R : Type) (sched : Nat → Bool) (fuel : Nat) (d : T) (f : T → T × R),
      (∀ (d' : T) (r : R) (tr : List Event),
        with_lock_run sched fuel d f = some (d', r, tr) →
          d' = (f d).1 ∧ r = (f d).2 ∧
          tr.countP touchesData = 1 ∧
          tr.getLast? = some (Event.store false MemOrder.release)) ∧
      (∀ (res : Except String R) (d' : T) (tr : List Event),
        with_lock_timeout_run sched fuel d f = some (res, d', tr) →
          (∀ r : R, res = Except.ok r →
            r = (f d).2 ∧ d' = (f d).1 ∧
            tr.countP touchesData = 1 ∧
            tr.getLast? = some (Event.store false MemOrder.release)) ∧
          (∀ e : String, res = Except.error e →
            e = maxAttemptsMsg ∧ d' = d ∧
            tr.countP touchesData = 0 ∧ tr.countP isStoreEvent = 0 ∧
            ∃ j, lockMaxRun sched fuel 0 0 0 true = some (Except.error e, tr, j))) := by
  intro T R sched fuel d f
  constructor
  · intro d' r tr h
    unfold with_lock_run at h
    cases hrun : lockRun sched fuel 0 0 true with
    | none => rw [hrun] at h; simp at h
    | some p =>
      rw [hrun] at h
      simp only [Option.some.injEq, Prod.mk.injEq] at h
      rcases h with ⟨hd, hr, htr⟩
      subst hd; subst hr
      have htr' : tr = p.1 ++ [Event.invoke, Event.store false MemOrder.release] := htr.symm
      subst htr'
      have hz : p.1.countP touchesData = 0 := by
        rw [List.countP_eq_zero]
        intro e he
        have := (lockRun_events sched fuel 0 0 true p.1 p.2 (by simpa using hrun) e he).1
        simp [this]
      refine ⟨rfl, rfl, ?_, ?_⟩
      · rw [List.countP_append, hz]
        decide
      · rw [List.getLast?_append]
        rfl
  · intro res d' tr h
    unfold with_lock_timeout_run at h
    cases hrun : lockMaxRun sched fuel 0 0 0 true with
    | none => rw [hrun] at h; simp at h
    | some q =>
      rw [hrun] at h
      rcases q with ⟨qr, qtr, qj⟩
      cases qr with
      | ok u =>
        simp only [Option.some.injEq, Prod.mk.injEq] at h
        rcases h with ⟨hres, hd, htr⟩
        subst hres
        have htr' : tr = qtr ++ [Event.invoke, Event.store false MemOrder.release] := htr.symm
        subst htr'
        have hz : qtr.countP touchesData = 0 := by
          rw [List.countP_eq_zero]
          intro e he
          have := (lockMaxRun_events sched fuel 0 0 0 true (Except.ok u) qtr qj hrun e he).1
          simp [this]
        refine ⟨fun r hr => ?_, fun e he => (by cases he)⟩
        injection hr with hr'
        refine ⟨hr'.symm, hd.symm, ?_, ?_⟩
        · rw [List.countP_append, hz]
          decide
        · rw [List.getLast?_append]
          rfl
      | error e₀ =>
        simp only [Option.some.injEq, Prod.mk.injEq] at h
        rcases h with ⟨hres, hd, htr⟩
        subst hres
        subst htr
        refine ⟨fun r hr => (by cases hr), fun e he => ?_⟩
        injection he with he'
        subst he'
        obtain ⟨s1, _, _⟩ :=
          lockMaxRun_spec sched fuel 0 0 0 true (Except.error e₀) qtr qj (by decide) hrun
        refine ⟨s1 e₀ rfl, hd.symm, ?_, ?_, qj, rfl⟩
        · rw [List.countP_eq_zero]
          intro e' he₂
          have := (lockMaxRun_events sched fuel 0 0 0 true (Except.error e₀) qtr qj hrun e' he₂).1
          simp [this]
        · rw [List.countP_eq_zero]
          intro e' he₂
          have := (lockMaxRun_events sched fuel 0 0 0 true (Except.error e₀) qtr qj hrun e' he₂).2
          simp [this]

/-- C5 witness: uncontended schedule, payload 0, computation
`n ↦ (n + 1, n)`: the helper returns the computation's result 0, stores the
updated payload 1, invokes the computation exactly once, and its final event
is the release store. -/
theorem C5_witness :
    (1 : Nat) = 1 ∧ (0 : Nat) = 0 ∧
    ([Event.cas false MemOrder.acquire MemOrder.relaxed, Event.invoke,
        Event.store false MemOrder.release]).countP touchesData = 1 ∧
    ([Event.cas false MemOrder.acquire MemOrder.relaxed, Event.invoke,
        Event.store false MemOrder.release]).getLast? =
      some (Event.store false MemOrder.release) :=
  (C5_scoped_helpers Nat Nat (fun _ => false) 1 0 (fun n => (n + 1, n))).1 1 0
    [Event.cas false MemOrder.acquire MemOrder.relaxed, Event.invoke,
      Event.store false MemOrder.release] rfl

/-! ## Claim C10 -/

/-- C10: the flag operations never read or modify the payload.  Every event in
any trace of `lock` or of `lock_with_max_attempts` leaves the payload
untouched (no `invoke` — the only payload-access event — occurs), and `unlock`
leaves the payload field of the state unchanged. -/
theorem C10_payload_frame :
    (∀ (sched : Nat → Bool) (fuel i freq : Nat) (pc : Bool) (tr : List Event) (j : Nat),
      lockRun sched fuel i freq pc = some (tr, j) → ∀ e ∈ tr, touchesData e = false) ∧
    (∀ (sched : Nat → Bool) (fuel i freq attempts : Nat) (pc : Bool)
        (r : Except String Unit) (tr : List Event) (j : Nat),
      lockMaxRun sched fuel i freq attempts pc = some (r, tr, j) →
        ∀ e ∈ tr, touchesData e = false) ∧
    (∀ (T : Type) (s : SpinLock T), (SpinLock.unlock s).1.data = s.data) := by
  refine ⟨?_, ?_, ?_⟩
  · intro sched fuel i freq pc tr j h e he
    exact (lockRun_events sched fuel i freq pc tr j h e he).1
  · intro sched fuel i freq attempts pc r tr j h e he
    exact (lockMaxRun_events sched fuel i freq attempts pc r tr j h e he).1
  · intro T s
    rfl

/-- C10 witness: the successful-CAS event of a concrete `lock` run touches no
payload, and `unlock` on a concrete lock keeps its payload. -/
theorem C10_witness :
    touchesData (Event.cas false MemOrder.acquire MemOrder.relaxed) = false ∧
    (SpinLock.unlock (SpinLock.new (0 : Nat))).1.data = (SpinLock.new (0 : Nat)).data :=
  ⟨C10_payload_frame.1 (fun _ => false) 1 0 0 true
      [Event.cas false MemOrder.acquire MemOrder.relaxed] 1 rfl
      (Event.cas false MemOrder.acquire MemOrder.relaxed) (by simp),
   C10_payload_frame.2.2 Nat (SpinLock.new 0)⟩
